import Mathlib

/-!
# Verification of the FrontMatterSequence token (vscode front matter codec)

Shallow embedding of `FrontMatterSequence` from
`src/vs/editor/common/codecs/frontMatterCodec/tokens/frontMatterSequence.ts`
together with the variant implementation of the same class found in the
source bundle (`src/unnamed/part_000`).

The token classes (`Space`, `Tab`, `VerticalTab`, `Word`), the `Range`
class and the `BaseToken` static helpers (`fullRange`, `render`) are not
part of the source fragment; they are modelled from the specification
(sections 3, 4.1 and the Rendering component).
-/

namespace FrontMatter

/-- Modelled from the spec: a source range
`(startLine, startColumn, endLine, endColumn)`, all 1-based. -/
structure Range where
  startLineNumber : Nat
  startColumn : Nat
  endLineNumber : Nat
  endColumn : Nat
deriving DecidableEq, Repr

/-- Modelled from the spec: `collapseToStart(range) -> (range.start, range.start)`;
embeds the `collapseRangeToStart` mutator of `BaseToken`. -/
def Range.collapseToStart (r : Range) : Range :=
  { startLineNumber := r.startLineNumber
    startColumn := r.startColumn
    endLineNumber := r.startLineNumber
    endColumn := r.startColumn }

/-- Modelled from the spec: the token kinds produced by the lexer
(`enum{Word, Space, Tab, VerticalTab, Punctuation, ...}`). -/
inductive TokenKind where
  | word
  | space
  | tab
  | verticalTab
  | punctuation
deriving DecidableEq, Repr

/-- Modelled from the spec: a Positioned Token
`{ text: string, range: Range, kind }`, immutable once created. -/
structure Token where
  kind : TokenKind
  text : String
  range : Range
deriving DecidableEq, Repr

/-- Modelled from the spec: `Word.newOnLine(text, line, column)` creates a
`Word` token on the given line starting at the given column; its range ends
after `text.length` characters on the same line. -/
def Word.newOnLine (text : String) (line column : Nat) : Token :=
  { kind := TokenKind.word
    text := text
    range :=
      { startLineNumber := line
        startColumn := column
        endLineNumber := line
        endColumn := column + text.length } }

/-- Modelled from the spec: the `Word` class constructor
`new Word(range, text)` used by the variant implementation. -/
def Word.ofRange (r : Range) (text : String) : Token :=
  { kind := TokenKind.word, text := text, range := r }

namespace BaseToken

/-- Modelled from the spec: `enclosingRange(tokens)` / `BaseToken.fullRange`:
precondition `tokens` is non-empty; returns
`(tokens[0].range.start, tokens[last].range.end)`. Calling with an empty
sequence is a programmer error (`InvariantViolation`), embedded as `none`. -/
def fullRange (tokens : List Token) : Option Range :=
  match tokens.head?, tokens.getLast? with
  | some first, some last =>
      some
        { startLineNumber := first.range.startLineNumber
          startColumn := first.range.startColumn
          endLineNumber := last.range.endLineNumber
          endColumn := last.range.endColumn }
  | _, _ => none

/-- Modelled from the spec: `BaseToken.render(tokens)` converts a sequence of
tokens back to the literal text they represent, concatenated in order. -/
def render : List Token → String
  | [] => ""
  | t :: rest => t.text ++ render rest

end BaseToken

/-- `VALID_SPACE_TOKENS` membership test of the named source file:
`token instanceof Space || token instanceof Tab || token instanceof VerticalTab`. -/
def isValidSpaceToken (t : Token) : Bool :=
  t.kind == TokenKind.space || t.kind == TokenKind.tab || t.kind == TokenKind.verticalTab

/-- The whitespace test of the variant implementation:
`token instanceof SpacingToken`. Modelled from the spec: the trimmable
whitespace kinds are exactly space, tab and vertical tab. -/
def isSpacingToken (t : Token) : Bool :=
  t.kind == TokenKind.space || t.kind == TokenKind.tab || t.kind == TokenKind.verticalTab

/-- The mutable state of a `FrontMatterSequence`: its owned token list
(`currentTokens` in the named file, `childTokens` in the variant) and its
current `range`. -/
structure FrontMatterSequence where
  currentTokens : List Token
  range : Range
deriving DecidableEq, Repr

namespace FrontMatterSequence

/-- The constructor:
`super(BaseToken.fullRange(tokens)); this.currentTokens = [...tokens]`.
The `fullRange` precondition failure on an empty input is embedded as `none`. -/
def construct (tokens : List Token) : Option FrontMatterSequence :=
  (BaseToken.fullRange tokens).map fun r =>
    { currentTokens := tokens, range := r }

/-- Modelled from the spec: the inherited `text` getter of a composite token
renders its owned tokens back to literal text. -/
def text (s : FrontMatterSequence) : String :=
  BaseToken.render s.currentTokens

/-- `get valueTypeName(): string { return this.text; }` -/
def valueTypeName (s : FrontMatterSequence) : String :=
  s.text

/-- `get cleanText(): string { return BaseToken.render(this.tokens); }` -/
def cleanText (s : FrontMatterSequence) : String :=
  BaseToken.render s.currentTokens

/-- `trimEnd` of the named source file: scans backward from the end while the
token is a `Space`, `Tab` or `VerticalTab`; `splice(index + 1)` removes the
trailing run (returned in original order); if the owned list became empty,
collapses the range to its start and pushes `Word.newOnLine('', line, column)`;
finally recomputes the range with `BaseToken.fullRange`. A `fullRange`
precondition failure would surface as `none`. -/
def trimEnd (s : FrontMatterSequence) :
    Option (FrontMatterSequence × List Token) :=
  let rev := s.currentTokens.reverse
  let trimmedTokens := (rev.takeWhile isValidSpaceToken).reverse
  let remaining := (rev.dropWhile isValidSpaceToken).reverse
  let tokensAfter :=
    if remaining.isEmpty then
      let collapsed := s.range.collapseToStart
      [Word.newOnLine "" collapsed.startLineNumber collapsed.startColumn]
    else
      remaining
  (BaseToken.fullRange tokensAfter).map fun r =>
    ({ currentTokens := tokensAfter, range := r }, trimmedTokens)

/-- `trimEnd` of the variant implementation (`src/unnamed/part_000`): pushes
trailing `SpacingToken`s onto `trimmedTokens` while scanning backward,
truncates `childTokens` to `index + 1`, inserts `new Word(this.range, '')`
after collapsing when the list became empty, recomputes the range, and
returns `trimmedTokens.reverse()`. -/
def trimEndV2 (s : FrontMatterSequence) :
    Option (FrontMatterSequence × List Token) :=
  let trimmedTokens := s.currentTokens.reverse.takeWhile isSpacingToken
  let childTokens := s.currentTokens.take (s.currentTokens.length - trimmedTokens.length)
  let tokensAfter :=
    if childTokens.isEmpty then
      let collapsed := s.range.collapseToStart
      [Word.ofRange collapsed ""]
    else
      childTokens
  (BaseToken.fullRange tokensAfter).map fun r =>
    ({ currentTokens := tokensAfter, range := r }, trimmedTokens.reverse)

end FrontMatterSequence

/-- The states a `FrontMatterSequence` can be in during its lifecycle:
freshly constructed, or the result of a successful `trimEnd` call on a
reachable state. -/
inductive Reachable : FrontMatterSequence → Prop
  | construct {tokens : List Token} {s : FrontMatterSequence}
      (h : FrontMatterSequence.construct tokens = some s) : Reachable s
  | trim {s s' : FrontMatterSequence} {removed : List Token}
      (hs : Reachable s)
      (h : FrontMatterSequence.trimEnd s = some (s', removed)) : Reachable s'

/-! ## Concrete example tokens (from the spec's test properties) -/

/-- The `Word("a")` token of the spec's trim-correctness example. -/
def exWordA : Token := { kind := TokenKind.word, text := "a", range := ⟨1, 1, 1, 2⟩ }

/-- The first `Space` token of the spec's trim-correctness example. -/
def exSpace1 : Token := { kind := TokenKind.space, text := " ", range := ⟨1, 2, 1, 3⟩ }

/-- The `Tab` token of the spec's trim-correctness example. -/
def exTab : Token := { kind := TokenKind.tab, text := "\t", range := ⟨1, 3, 1, 4⟩ }

/-- The `Word("b")` token of the spec's trim-correctness example. -/
def exWordB : Token := { kind := TokenKind.word, text := "b", range := ⟨1, 4, 1, 5⟩ }

/-- The second `Space` token of the spec's trim-correctness example. -/
def exSpace2 : Token := { kind := TokenKind.space, text := " ", range := ⟨1, 5, 1, 6⟩ }

/-- The third `Space` token of the spec's trim-correctness example. -/
def exSpace3 : Token := { kind := TokenKind.space, text := " ", range := ⟨1, 6, 1, 7⟩ }

/-- The token list `[Word("a"), Space, Tab, Word("b"), Space, Space]`. -/
def exTokens : List Token := [exWordA, exSpace1, exTab, exWordB, exSpace2, exSpace3]

/-- The sequence constructed from `exTokens`. -/
def exSeq : FrontMatterSequence := { currentTokens := exTokens, range := ⟨1, 1, 1, 7⟩ }

/-- The state of `exSeq` after one `trimEnd` call. -/
def exTrimmed : FrontMatterSequence :=
  { currentTokens := [exWordA, exSpace1, exTab, exWordB], range := ⟨1, 1, 1, 5⟩ }

/-- An all-whitespace sequence `[Space, Tab]` (the spec's collapse example). -/
def exWsSeq : FrontMatterSequence :=
  { currentTokens := [exSpace1, exTab], range := ⟨1, 2, 1, 4⟩ }

/-- The state of `exWsSeq` after `trimEnd` collapsed it. -/
def exWsCollapsed : FrontMatterSequence :=
  { currentTokens := [Word.newOnLine "" 1 2], range := ⟨1, 2, 1, 2⟩ }

/-! ## Helper lemmas about trailing-run decompositions -/

section ListHelpers

variable {α : Type} {p : α → Bool}

lemma takeWhile_append_of_all (a b : List α) (h : ∀ x ∈ a, p x = true) :
    (a ++ b).takeWhile p = a ++ b.takeWhile p := by
  induction a with
  | nil => simp
  | cons x xs ih =>
      have hx : p x = true := h x (List.mem_cons_self x xs)
      simp only [List.cons_append, List.takeWhile_cons_of_pos hx, List.cons.injEq, true_and]
      exact ih fun y hy => h y (List.mem_cons_of_mem x hy)

lemma dropWhile_append_of_all (a b : List α) (h : ∀ x ∈ a, p x = true) :
    (a ++ b).dropWhile p = b.dropWhile p := by
  induction a with
  | nil => simp
  | cons x xs ih =>
      have hx : p x = true := h x (List.mem_cons_self x xs)
      simp only [List.cons_append, List.dropWhile_cons_of_pos hx]
      exact ih fun y hy => h y (List.mem_cons_of_mem x hy)

lemma takeWhile_eq_nil_of_head_false (b : List α) (h : ∀ x ∈ b.head?, p x = false) :
    b.takeWhile p = [] := by
  cases b with
  | nil => rfl
  | cons x xs =>
      have hx : p x = false := h x rfl
      exact List.takeWhile_cons_of_neg (by simp [hx])

lemma dropWhile_eq_self_of_head_false (b : List α) (h : ∀ x ∈ b.head?, p x = false) :
    b.dropWhile p = b := by
  cases b with
  | nil => rfl
  | cons x xs =>
      have hx : p x = false := h x rfl
      exact List.dropWhile_cons_of_neg (by simp [hx])

/-- Every list splits as the reversed drop-while of its reverse followed by the
reversed take-while of its reverse: the prefix kept by a backward whitespace
scan followed by the maximal trailing run satisfying `p`. -/
lemma eq_keep_append_trailing (l : List α) :
    l = (l.reverse.dropWhile p).reverse ++ (l.reverse.takeWhile p).reverse := by
  conv_lhs =>
    rw [← List.reverse_reverse l, ← List.takeWhile_append_dropWhile p l.reverse,
      List.reverse_append]

lemma take_length_sub_takeWhile_reverse (l : List α) :
    l.take (l.length - (l.reverse.takeWhile p).length) =
      (l.reverse.dropWhile p).reverse := by
  obtain ⟨d, k, hd, hk⟩ :
      ∃ d k, d = l.reverse.dropWhile p ∧ k = l.reverse.takeWhile p :=
    ⟨_, _, rfl, rfl⟩
  rw [← hd, ← hk]
  have hl : l = d.reverse ++ k.reverse := by
    rw [hd, hk]; exact eq_keep_append_trailing l
  rw [hl, List.length_append, List.length_reverse, List.length_reverse]
  have hlen : d.length + k.length - k.length = d.reverse.length := by
    simp [List.length_reverse]
  rw [hlen]
  exact List.take_left _ _

end ListHelpers

/-! ## Helper lemmas about `fullRange` -/

lemma fullRange_nil : BaseToken.fullRange [] = none := rfl

lemma fullRange_singleton (t : Token) : BaseToken.fullRange [t] = some t.range := rfl

lemma fullRange_of_ne_nil (l : List Token) (h : l ≠ []) :
    BaseToken.fullRange l =
      some
        { startLineNumber := (l.head h).range.startLineNumber
          startColumn := (l.head h).range.startColumn
          endLineNumber := (l.getLast h).range.endLineNumber
          endColumn := (l.getLast h).range.endColumn } := by
  unfold BaseToken.fullRange
  rw [List.head?_eq_head h, List.getLast?_eq_getLast l h]

lemma fullRange_isSome (l : List Token) (h : l ≠ []) :
    ∃ r, BaseToken.fullRange l = some r :=
  ⟨_, fullRange_of_ne_nil l h⟩

/-- The synthetic empty `Word` pushed by the collapse branch sits exactly at
the collapsed start point of the given range. -/
lemma word_newOnLine_empty_range (r : Range) :
    (Word.newOnLine "" r.startLineNumber r.startColumn).range = r.collapseToStart := rfl

/-- The synthetic empty `Word` is not a whitespace token. -/
lemma word_newOnLine_not_space (text : String) (line column : Nat) :
    isValidSpaceToken (Word.newOnLine text line column) = false := rfl

/-- Rendering a token list is the plain concatenation of the tokens' texts. -/
lemma render_eq_foldr (l : List Token) :
    BaseToken.render l = (l.map Token.text).foldr (fun a b => a ++ b) "" := by
  induction l with
  | nil => rfl
  | cons t ts ih =>
      simp only [BaseToken.render, List.map_cons, List.foldr_cons, ih]

/-! ## Branch lemmas for `trimEnd` and `construct` -/

/-- When the backward scan stops at some non-whitespace token (the kept prefix
is non-empty), `trimEnd` keeps that prefix and returns the trailing run. -/
lemma trimEnd_of_keep_ne_nil (s : FrontMatterSequence)
    (h : s.currentTokens.reverse.dropWhile isValidSpaceToken ≠ []) :
    ∃ r,
      BaseToken.fullRange
          (s.currentTokens.reverse.dropWhile isValidSpaceToken).reverse = some r ∧
      s.trimEnd = some
        ({ currentTokens := (s.currentTokens.reverse.dropWhile isValidSpaceToken).reverse
           range := r },
         (s.currentTokens.reverse.takeWhile isValidSpaceToken).reverse) := by
  have hne : (s.currentTokens.reverse.dropWhile isValidSpaceToken).reverse ≠ [] := by
    simpa [List.reverse_eq_nil_iff] using h
  obtain ⟨r, hr⟩ := fullRange_isSome _ hne
  refine ⟨r, hr, ?_⟩
  simp only [FrontMatterSequence.trimEnd, List.isEmpty_eq_false.mpr hne, Bool.false_eq_true,
    if_false, hr, Option.map_some']

/-- When every owned token is whitespace, `trimEnd` removes all of them,
collapses the range and inserts the synthetic empty `Word`. -/
lemma trimEnd_of_all_space_core (s : FrontMatterSequence)
    (h : s.currentTokens.reverse.dropWhile isValidSpaceToken = []) :
    s.trimEnd = some
      ({ currentTokens := [Word.newOnLine "" s.range.startLineNumber s.range.startColumn]
         range := s.range.collapseToStart },
       s.currentTokens) := by
  have htake : s.currentTokens.reverse.takeWhile isValidSpaceToken =
      s.currentTokens.reverse :=
    List.takeWhile_eq_self_iff.mpr (List.dropWhile_eq_nil_iff.mp h)
  simp only [FrontMatterSequence.trimEnd, h, htake, List.reverse_nil, List.isEmpty_nil,
    if_true, List.reverse_reverse, fullRange_singleton, Option.map_some']
  rfl

/-- What a successful construction determines: the tokens were copied verbatim,
the range is their enclosing range, and the input was non-empty. -/
lemma construct_characterization (tokens : List Token) (s : FrontMatterSequence)
    (h : FrontMatterSequence.construct tokens = some s) :
    s.currentTokens = tokens ∧ BaseToken.fullRange tokens = some s.range ∧
      tokens ≠ [] := by
  unfold FrontMatterSequence.construct at h
  cases hfr : BaseToken.fullRange tokens with
  | none => rw [hfr] at h; exact Option.noConfusion h
  | some r =>
      rw [hfr, Option.map_some'] at h
      obtain h' := Option.some.inj h
      subst h'
      refine ⟨rfl, rfl, ?_⟩
      intro hnil
      rw [hnil, fullRange_nil] at hfr
      exact Option.noConfusion hfr

/-- Every state produced by `trimEnd` has a non-empty owned-token list, a
range equal to the enclosing range of its tokens, and no trailing
whitespace token. -/
lemma trimEnd_result_state (s s' : FrontMatterSequence) (removed : List Token)
    (h : s.trimEnd = some (s', removed)) :
    s'.currentTokens ≠ [] ∧
    BaseToken.fullRange s'.currentTokens = some s'.range ∧
    ∀ x ∈ s'.currentTokens.getLast?, isValidSpaceToken x = false := by
  by_cases hd : s.currentTokens.reverse.dropWhile isValidSpaceToken = []
  · rw [trimEnd_of_all_space_core s hd] at h
    obtain ⟨h1, h2⟩ := (Prod.mk.injEq _ _ _ _).mp (Option.some.inj h)
    subst h1
    refine ⟨by simp, ?_, ?_⟩
    · rw [fullRange_singleton, word_newOnLine_empty_range]
    · intro x hx
      rw [Option.mem_def] at hx
      simp only [List.getLast?_singleton, Option.some.injEq] at hx
      rw [← hx]
      exact word_newOnLine_not_space "" _ _
  · obtain ⟨r, hr, htrim⟩ := trimEnd_of_keep_ne_nil s hd
    rw [htrim] at h
    obtain ⟨h1, h2⟩ := (Prod.mk.injEq _ _ _ _).mp (Option.some.inj h)
    subst h1
    refine ⟨by simpa [List.reverse_eq_nil_iff] using hd, hr, ?_⟩
    intro x hx
    rw [Option.mem_def] at hx
    rw [List.getLast?_reverse] at hx
    rw [List.head?_eq_head hd] at hx
    have hhead := List.head_dropWhile_not isValidSpaceToken s.currentTokens.reverse hd
    rw [Option.some.inj hx] at hhead
    exact hhead

/-- Given a decomposition of a token list into a kept part whose last token is
not whitespace (or which is empty) and an all-whitespace trailing part, the
backward scan of `trimEnd` recovers exactly that decomposition. -/
lemma takeWhile_reverse_of_decomp (pre rem : List Token)
    (hws : ∀ t ∈ rem, isValidSpaceToken t = true)
    (hmax : pre = [] ∨ ∃ t, pre.getLast? = some t ∧ isValidSpaceToken t = false) :
    (pre ++ rem).reverse.takeWhile isValidSpaceToken = rem.reverse ∧
    (pre ++ rem).reverse.dropWhile isValidSpaceToken = pre.reverse := by
  have hwsrev : ∀ x ∈ rem.reverse, isValidSpaceToken x = true := fun x hx =>
    hws x (List.mem_reverse.mp hx)
  have hhead : ∀ x ∈ pre.reverse.head?, isValidSpaceToken x = false := by
    intro x hx
    rw [Option.mem_def, List.head?_reverse] at hx
    rcases hmax with h0 | ⟨t, ht, hpt⟩
    · subst h0; exact Option.noConfusion hx
    · rw [ht] at hx
      rw [← Option.some.inj hx]
      exact hpt
  constructor
  · rw [List.reverse_append, takeWhile_append_of_all _ _ hwsrev,
      takeWhile_eq_nil_of_head_false _ hhead, List.append_nil]
  · rw [List.reverse_append, dropWhile_append_of_all _ _ hwsrev,
      dropWhile_eq_self_of_head_false _ hhead]

/-- Concrete step: constructing from the spec's example token list. -/
lemma ex_construct_step : FrontMatterSequence.construct exTokens = some exSeq := by
  decide

/-- Concrete step: the first `trimEnd` call on the spec's example sequence. -/
lemma ex_trim_step :
    exSeq.trimEnd = some (exTrimmed, [exSpace2, exSpace3]) := by
  decide

/-- Concrete step: `trimEnd` on the all-whitespace example sequence. -/
lemma ex_ws_trim_step :
    exWsSeq.trimEnd = some (exWsCollapsed, [exSpace1, exTab]) := by
  decide

/-! ## Claim theorems -/

/-- Claim C1: for every sequence of owned tokens, `trimEnd` removes exactly the
maximal trailing run of whitespace-kind tokens (space, tab, vertical tab),
returns the removed tokens in original left-to-right source order, and leaves
the remaining non-empty kept part of `ownedTokens` unchanged and in order. -/
theorem trimEnd_removes_maximal_trailing_whitespace
    (s : FrontMatterSequence) (pre rem : List Token)
    (hdecomp : s.currentTokens = pre ++ rem)
    (hws : ∀ t ∈ rem, isValidSpaceToken t = true)
    (hmax : pre = [] ∨ ∃ t, pre.getLast? = some t ∧ isValidSpaceToken t = false) :
    ∃ s', s.trimEnd = some (s', rem) ∧ (pre ≠ [] → s'.currentTokens = pre) := by
  obtain ⟨htake, hdrop⟩ := takeWhile_reverse_of_decomp pre rem hws hmax
  rw [← hdecomp] at htake hdrop
  by_cases hpre : pre = []
  · subst hpre
    have hd : s.currentTokens.reverse.dropWhile isValidSpaceToken = [] := by
      rw [hdrop, List.reverse_nil]
    have hstep := trimEnd_of_all_space_core s hd
    rw [hdecomp, List.nil_append] at hstep
    exact ⟨_, hstep, fun hcon => absurd rfl hcon⟩
  · have hd : s.currentTokens.reverse.dropWhile isValidSpaceToken ≠ [] := by
      rw [hdrop]
      simpa [List.reverse_eq_nil_iff] using hpre
    obtain ⟨r, hr, htrim⟩ := trimEnd_of_keep_ne_nil s hd
    rw [htake, hdrop, List.reverse_reverse, List.reverse_reverse] at htrim
    exact ⟨_, htrim, fun _ => rfl⟩

/-- Witness for C1 at the spec's example
`[Word("a"), Space, Tab, Word("b"), Space, Space]`. -/
theorem trimEnd_removes_maximal_trailing_whitespace_witness :
    ∃ s', exSeq.trimEnd = some (s', [exSpace2, exSpace3]) ∧
      ([exWordA, exSpace1, exTab, exWordB] ≠ [] →
        s'.currentTokens = [exWordA, exSpace1, exTab, exWordB]) :=
  trimEnd_removes_maximal_trailing_whitespace exSeq
    [exWordA, exSpace1, exTab, exWordB] [exSpace2, exSpace3]
    (by decide) (by decide) (Or.inr ⟨exWordB, by decide, by decide⟩)

/-- Claim C2: the owned-token list is non-empty after construction and after
every `trimEnd` call; when `trimEnd` removes all tokens, exactly one synthetic
empty `Word` token is inserted at the sequence's start. -/
theorem ownedTokens_nonempty_invariant :
    (∀ (tokens : List Token) (s : FrontMatterSequence),
        FrontMatterSequence.construct tokens = some s → s.currentTokens ≠ []) ∧
    (∀ (s s' : FrontMatterSequence) (removed : List Token),
        s.trimEnd = some (s', removed) → s'.currentTokens ≠ []) ∧
    (∀ (s s' : FrontMatterSequence) (removed : List Token),
        s.trimEnd = some (s', removed) → s.currentTokens.length = removed.length →
        s'.currentTokens =
          [Word.newOnLine "" s.range.startLineNumber s.range.startColumn]) := by
  refine ⟨?_, ?_, ?_⟩
  · intro tokens s h
    obtain ⟨hcur, -, hne⟩ := construct_characterization tokens s h
    rw [hcur]
    exact hne
  · intro s s' removed h
    exact (trimEnd_result_state s s' removed h).1
  · intro s s' removed h hlen
    have hd : s.currentTokens.reverse.dropWhile isValidSpaceToken = [] := by
      by_contra hd
      obtain ⟨r, hr, htrim⟩ := trimEnd_of_keep_ne_nil s hd
      rw [htrim] at h
      obtain ⟨h1, h2⟩ := (Prod.mk.injEq _ _ _ _).mp (Option.some.inj h)
      have hsplit := eq_keep_append_trailing (p := isValidSpaceToken) s.currentTokens
      have hlen2 : s.currentTokens.length =
          (s.currentTokens.reverse.dropWhile isValidSpaceToken).length +
          (s.currentTokens.reverse.takeWhile isValidSpaceToken).length := by
        conv_lhs => rw [hsplit]
        simp [List.length_append, List.length_reverse]
      rw [← h2, List.length_reverse] at hlen
      have hzero : (s.currentTokens.reverse.dropWhile isValidSpaceToken).length = 0 := by
        omega
      exact hd (List.length_eq_zero.mp hzero)
    rw [trimEnd_of_all_space_core s hd] at h
    obtain ⟨h1, h2⟩ := (Prod.mk.injEq _ _ _ _).mp (Option.some.inj h)
    rw [← h1]

/-- Witness for C2: the non-emptiness conclusions at the concrete examples. -/
theorem ownedTokens_nonempty_invariant_witness :
    exSeq.currentTokens ≠ [] ∧ exTrimmed.currentTokens ≠ [] ∧
    exWsCollapsed.currentTokens =
      [Word.newOnLine "" exWsSeq.range.startLineNumber exWsSeq.range.startColumn] :=
  ⟨ownedTokens_nonempty_invariant.1 exTokens exSeq ex_construct_step,
   ownedTokens_nonempty_invariant.2.1 exSeq exTrimmed [exSpace2, exSpace3] ex_trim_step,
   ownedTokens_nonempty_invariant.2.2 exWsSeq exWsCollapsed [exSpace1, exTab]
     ex_ws_trim_step (by decide)⟩

/-- Claim C3: for every reachable `FrontMatterSequence` (constructed, then
trimmed any number of times), `range.start` equals the first owned token's
start and `range.end` equals the last owned token's end — i.e. the range is
exactly the enclosing range of the owned tokens. -/
theorem range_matches_owned_tokens (s : FrontMatterSequence) (h : Reachable s) :
    BaseToken.fullRange s.currentTokens = some s.range := by
  induction h with
  | construct hc =>
      obtain ⟨hcur, hfr, -⟩ := construct_characterization _ _ hc
      rw [hcur]
      exact hfr
  | trim hs ht ih =>
      exact (trimEnd_result_state _ _ _ ht).2.1

/-- Witness for C3 at the example sequence after one `trimEnd` call. -/
theorem range_matches_owned_tokens_witness :
    BaseToken.fullRange exTrimmed.currentTokens = some exTrimmed.range :=
  range_matches_owned_tokens exTrimmed
    (Reachable.trim (Reachable.construct ex_construct_step) ex_trim_step)

/-- Claim C4: on an all-whitespace sequence, `trimEnd` removes all tokens,
returns them in original order, leaves exactly one synthetic empty `Word`
token at the sequence's original start point, and the range collapses to that
single point. -/
theorem trimEnd_all_whitespace_collapse (s : FrontMatterSequence)
    (hall : ∀ t ∈ s.currentTokens, isValidSpaceToken t = true) :
    s.trimEnd = some
      ({ currentTokens := [Word.newOnLine "" s.range.startLineNumber s.range.startColumn]
         range := s.range.collapseToStart },
       s.currentTokens) := by
  apply trimEnd_of_all_space_core
  rw [List.dropWhile_eq_nil_iff]
  intro x hx
  exact hall x (List.mem_reverse.mp hx)

/-- Witness for C4 at the spec's `[Space, Tab]` example. -/
theorem trimEnd_all_whitespace_collapse_witness :
    exWsSeq.trimEnd = some
      ({ currentTokens :=
           [Word.newOnLine "" exWsSeq.range.startLineNumber exWsSeq.range.startColumn]
         range := exWsSeq.range.collapseToStart },
       exWsSeq.currentTokens) :=
  trimEnd_all_whitespace_collapse exWsSeq (by decide)

/-- Claim C5: `trimEnd` is idempotent — a second call with no intervening
mutation returns an empty removed-list and leaves the state (owned tokens and
range) unchanged; the synthetic empty `Word` of the collapse branch is
non-whitespace, so the second scan halts immediately on it as well. -/
theorem trimEnd_idempotent (s s₁ : FrontMatterSequence) (removed : List Token)
    (h : s.trimEnd = some (s₁, removed)) :
    s₁.trimEnd = some (s₁, []) ∧
    isValidSpaceToken
      (Word.newOnLine "" s.range.startLineNumber s.range.startColumn) = false := by
  refine ⟨?_, word_newOnLine_not_space "" _ _⟩
  obtain ⟨hne, hfr, hlast⟩ := trimEnd_result_state s s₁ removed h
  have hhead : ∀ x ∈ s₁.currentTokens.reverse.head?, isValidSpaceToken x = false := by
    intro x hx
    rw [Option.mem_def, List.head?_reverse] at hx
    exact hlast x hx
  have htake : s₁.currentTokens.reverse.takeWhile isValidSpaceToken = [] :=
    takeWhile_eq_nil_of_head_false _ hhead
  have hdrop : s₁.currentTokens.reverse.dropWhile isValidSpaceToken =
      s₁.currentTokens.reverse :=
    dropWhile_eq_self_of_head_false _ hhead
  have hd : s₁.currentTokens.reverse.dropWhile isValidSpaceToken ≠ [] := by
    rw [hdrop]
    simpa [List.reverse_eq_nil_iff] using hne
  obtain ⟨r, hr, htrim⟩ := trimEnd_of_keep_ne_nil s₁ hd
  rw [htake, hdrop, List.reverse_reverse, List.reverse_nil] at htrim
  rw [hdrop, List.reverse_reverse, hfr] at hr
  obtain rfl := Option.some.inj hr
  rw [htrim]

/-- Witness for C5: the second call on the trimmed example state is a no-op. -/
theorem trimEnd_idempotent_witness :
    exTrimmed.trimEnd = some (exTrimmed, []) ∧
    isValidSpaceToken
      (Word.newOnLine "" exSeq.range.startLineNumber exSeq.range.startColumn) = false :=
  trimEnd_idempotent exSeq exTrimmed [exSpace2, exSpace3] ex_trim_step

/-- Counterexample to C6 as stated: constructing from an empty token sequence
does not produce a sequence with a caller-supplied collapsed range — it fails
the `enclosingRange` precondition, so no sequence is produced at all. -/
theorem construct_empty_no_sequence :
    FrontMatterSequence.construct ([] : List Token) = none ∧
    ¬∃ s : FrontMatterSequence,
        FrontMatterSequence.construct ([] : List Token) = some s := by
  refine ⟨rfl, ?_⟩
  rintro ⟨s, hs⟩
  exact Option.noConfusion hs

/-- Claim C6 (amended): construction from an ordered, non-empty sequence of
positioned tokens copies the tokens into the sequence's own storage and sets
its range to the enclosing range of those tokens; there is no caller-supplied
collapsed range, and constructing from an empty sequence fails the
`enclosingRange` precondition instead. -/
theorem construct_nonempty_sets_enclosing_range (tokens : List Token)
    (h : tokens ≠ []) :
    ∃ s, FrontMatterSequence.construct tokens = some s ∧
      s.currentTokens = tokens ∧
      BaseToken.fullRange tokens = some s.range := by
  obtain ⟨r, hr⟩ := fullRange_isSome tokens h
  refine ⟨{ currentTokens := tokens, range := r }, ?_, rfl, hr⟩
  unfold FrontMatterSequence.construct
  rw [hr, Option.map_some']

/-- Witness for the amended C6 at a singleton token list. -/
theorem construct_nonempty_sets_enclosing_range_witness :
    ∃ s, FrontMatterSequence.construct [exWordA] = some s ∧
      s.currentTokens = [exWordA] ∧
      BaseToken.fullRange [exWordA] = some s.range :=
  construct_nonempty_sets_enclosing_range [exWordA] (by decide)

/-- Claim C7: `trimEnd` never reaches the empty-list error branch of
`enclosingRange`: on every state it returns a result (the embedded
`InvariantViolation`, `none`, is unreachable), because the synthetic-empty
branch guarantees non-emptiness before the range is recomputed. -/
theorem trimEnd_never_hits_empty_fullRange (s : FrontMatterSequence) :
    (s.trimEnd).isSome = true := by
  by_cases hd : s.currentTokens.reverse.dropWhile isValidSpaceToken = []
  · rw [trimEnd_of_all_space_core s hd]
    rfl
  · obtain ⟨r, hr, htrim⟩ := trimEnd_of_keep_ne_nil s hd
    rw [htrim]
    rfl

/-- Claim C8: `cleanText` returns exactly the concatenation of each owned
token's literal text in order, with no whitespace normalization or trimming
applied. -/
theorem cleanText_no_normalization (s : FrontMatterSequence) :
    s.cleanText = (s.currentTokens.map Token.text).foldr (fun a b => a ++ b) "" :=
  render_eq_foldr s.currentTokens

/-- Claim C9: `valueTypeName` equals the sequence's own rendered text — the
same string that rendering its owned tokens produces, which is also what
`cleanText` returns. -/
theorem valueTypeName_is_rendered_text (s : FrontMatterSequence) :
    s.valueTypeName = BaseToken.render s.currentTokens ∧
    s.valueTypeName = s.cleanText :=
  ⟨rfl, rfl⟩

/-- Claim C10: the two variant implementations of `trimEnd` (instanceof
`Space`/`Tab`/`VerticalTab` with `splice`, versus instanceof `SpacingToken`
with backward collection and a final reverse) agree on every input state:
equal removed lists, equal owned-token lists and equal ranges. -/
theorem trimEnd_variants_equivalent (s : FrontMatterSequence) :
    s.trimEnd = s.trimEndV2 := by
  have hpred : isSpacingToken = isValidSpaceToken := rfl
  have hchild : s.currentTokens.take
      (s.currentTokens.length -
        (s.currentTokens.reverse.takeWhile isValidSpaceToken).length) =
      (s.currentTokens.reverse.dropWhile isValidSpaceToken).reverse :=
    take_length_sub_takeWhile_reverse s.currentTokens
  simp only [FrontMatterSequence.trimEnd, FrontMatterSequence.trimEndV2, hpred, hchild]
  rfl

end FrontMatter
